import Mathlib

/-!
# Verification of `perf.go`

A shallow embedding of the streaming statistics accumulator `Perf` and of
its input `Record`, followed by theorems about `Add`, `Reset` and the
derived metrics.

Modelling conventions.

* `time.Time` is an instant: an integer count of nanoseconds counted from
  the zero instant (January 1, year 1, 00:00:00 UTC), negative before it.
  The representation limit of the standard library (about 292 billion
  years either side) and monotonic clock readings are not modelled.
* `time.Duration` is an `int64` nanosecond count; the product
  `-1 * r.Latency` wraps to 64 bits as in Go.
* `uint32` and `uint64` fields are natural numbers reduced modulo `2^32`
  and `2^64` after every operation.
* `float64` is evaluated in exact rational arithmetic: `some q` is the
  finite value `q`, `none` is any non-finite value (an infinity or a
  not-a-number).  Every operation `Add` and the metrics perform maps a
  non-finite operand to a non-finite result, and a division by zero is
  never finite.
-/

namespace PerfModel

/-! ## The `time` values the program uses -/

/-- An instant, as nanoseconds from the zero instant. -/
structure Time where
  ns : Int
  deriving DecidableEq, Repr

/-- The zero instant, `*new(time.Time)`. -/
def Time.zero : Time := ⟨0⟩

/-- Reduction of an integer to the `int64` range (two's complement). -/
def wrapInt64 (x : Int) : Int := (x + 2 ^ 63) % 2 ^ 64 - 2 ^ 63

/-- The smallest `time.Duration`. -/
def minDuration : Int := -(2 ^ 63)

/-- The largest `time.Duration`. -/
def maxDuration : Int := 2 ^ 63 - 1

/-- The method `t.After(u)`: is `t` strictly later than `u`. -/
def Time.After (t u : Time) : Bool := decide (u.ns < t.ns)

/-- The method `t.Before(u)`: is `t` strictly earlier than `u`. -/
def Time.Before (t u : Time) : Bool := decide (t.ns < u.ns)

/-- The method `t.IsZero()`: is `t` the zero instant. -/
def Time.IsZero (t : Time) : Bool := decide (t.ns = 0)

/-- The method `t.Add(d)`: the instant `d` nanoseconds after `t`. -/
def Time.Add (t : Time) (d : Int) : Time := ⟨t.ns + d⟩

/-- The method `t.Sub(u)`: the duration `t - u`, saturated to the `int64` range. -/
def Time.Sub (t u : Time) : Int :=
  if t.ns - u.ns < minDuration then minDuration
  else if maxDuration < t.ns - u.ns then maxDuration
  else t.ns - u.ns

/-- The method `d.Seconds()`: a duration as a number of seconds. -/
def Seconds (d : Int) : ℚ := (d : ℚ) / 1000000000

/-! ## Exact `float64` arithmetic with a non-finite value -/

/-- A `float64` value in exact arithmetic; `none` is a non-finite value. -/
abbrev Float64 := Option ℚ

/-- Sum of two values. -/
def fadd (a b : Float64) : Float64 :=
  match a, b with
  | some x, some y => some (x + y)
  | _, _ => none

/-- Difference of two values. -/
def fsub (a b : Float64) : Float64 :=
  match a, b with
  | some x, some y => some (x - y)
  | _, _ => none

/-- Product of two values. -/
def fmul (a b : Float64) : Float64 :=
  match a, b with
  | some x, some y => some (x * y)
  | _, _ => none

/-- Quotient by a finite divisor `d`; a division by zero is not finite. -/
def fdivBy (a : Float64) (d : ℚ) : Float64 :=
  match a with
  | some x => if d = 0 then none else some (x / d)
  | none => none

/-- The conversion `time.Duration(f)` of a `float64`: truncation toward zero;
a non-finite or out-of-range value has no defined result. -/
def toDuration (f : Float64) : Option Int :=
  match f with
  | some q =>
    let t : Int := if 0 ≤ q then ⌊q⌋ else ⌈q⌉
    if minDuration ≤ t ∧ t ≤ maxDuration then some t else none
  | none => none

/-- The value `math.Sqrt(f)` followed by `time.Duration(..)`: the integer
part of the square root.  For a finite `q ≥ 0` the integer part of `√q` is
the integer square root of `⌊q⌋`; a negative or non-finite argument gives a
not-a-number. -/
def sqrtToDuration (f : Float64) : Option Int :=
  match f with
  | some q =>
    if 0 ≤ q then
      let t : Int := (Nat.sqrt ⌊q⌋.toNat : Int)
      if t ≤ maxDuration then some t else none
    else none
  | none => none

/-! ## Data model -/

/-- Record stores information of a decided value. -/
structure Record where
  Size : Int
  Timestamp : Time
  Latency : Int
  deriving DecidableEq, Repr

/-- Perf stores performance data for an experiment. -/
structure Perf where
  Values : Nat
  Bytes : Nat
  StartTime : Time
  EndTime : Time
  moment1 : Float64
  moment2 : Float64
  deriving DecidableEq, Repr

/-- The zero value of `Perf`, a freshly constructed accumulator. -/
def Perf.empty : Perf := ⟨0, 0, Time.zero, Time.zero, some 0, some 0⟩

/-- The conversion `uint64(r.Size)` of a signed integer. -/
def toUint64 (x : Int) : Nat := (x % 2 ^ 64).toNat

/-- The instant `r.Timestamp.Add(-1 * r.Latency)` computed by `Add`. -/
def proposalTS (r : Record) : Time := r.Timestamp.Add (wrapInt64 (-1 * r.Latency))

/-- Add a Record to the performance data. -/
def Perf.Add (p : Perf) (r : Record) : Perf :=
  let values : Nat := (p.Values + 1) % 2 ^ 32
  let bytes : Nat := (p.Bytes + toUint64 r.Size) % 2 ^ 64
  let endTime := if r.Timestamp.After p.EndTime then r.Timestamp else p.EndTime
  let startTime :=
    if p.StartTime.IsZero || (proposalTS r).Before p.StartTime then proposalTS r
    else p.StartTime
  let delta1 := fsub (some (r.Latency : ℚ)) p.moment1
  let m1 := fadd p.moment1 (fdivBy delta1 (values : ℚ))
  let delta2 := fsub (some (r.Latency : ℚ)) m1
  let m2 := fadd p.moment2 (fmul delta1 delta2)
  ⟨values, bytes, startTime, endTime, m1, m2⟩

/-- ValuesPerSec returns throughput in decided values per second. -/
def Perf.ValuesPerSec (p : Perf) : Float64 :=
  let duration := p.EndTime.Sub p.StartTime
  fdivBy (some (p.Values : ℚ)) (Seconds duration)

/-- Mbps returns throughput in megabits per second. -/
def Perf.Mbps (p : Perf) : Float64 :=
  let duration := p.EndTime.Sub p.StartTime
  let bytesPerSec := fdivBy (some (p.Bytes : ℚ)) (Seconds duration)
  fdivBy (fmul bytesPerSec (some 8)) 1000000

/-- LatencyMean returns the mean latency. -/
def Perf.LatencyMean (p : Perf) : Option Int := toDuration p.moment1

/-- The local `variance` of `LatencyStdev`: `moment2 / float64(Values - 1)`,
the subtraction being a `uint32` one. -/
def Perf.variance (p : Perf) : Float64 :=
  fdivBy p.moment2 (((p.Values + (2 ^ 32 - 1)) % 2 ^ 32 : Nat) : ℚ)

/-- LatencyStdev returns the standard deviation of latencies. -/
def Perf.LatencyStdev (p : Perf) : Option Int := sqrtToDuration p.variance

/-- Reset the performance data. -/
def Perf.Reset (_p : Perf) : Perf :=
  ⟨0, 0, Time.zero, Time.zero, some 0, some 0⟩

/-- The records of a list passed one by one to `Add`. -/
def addAll (p : Perf) (rs : List Record) : Perf := rs.foldl Perf.Add p

/-- A call on the accumulator: `Add` of a record, or `Reset`. -/
inductive Op where
  | add (r : Record)
  | reset
  deriving DecidableEq, Repr

/-- The effect of one call. -/
def step (p : Perf) : Op → Perf
  | Op.add r => p.Add r
  | Op.reset => p.Reset

/-- The effect of a sequence of calls. -/
def run (p : Perf) (ops : List Op) : Perf := ops.foldl step p

/-- The number of `Add` calls after the last `Reset` of a sequence (all of
them when it has no `Reset`). -/
def addsSinceReset (ops : List Op) : Nat :=
  ops.foldl (fun n op => match op with | Op.add _ => n + 1 | Op.reset => 0) 0

/-- The sum of the latencies of a list of records. -/
def latencySum (rs : List Record) : ℚ := (rs.map fun r => (r.Latency : ℚ)).sum

/-- The arithmetic mean of the latencies. -/
def latencyMean (rs : List Record) : ℚ := latencySum rs / (rs.length : ℚ)

/-- The two-pass sum of squared deviations from the mean. -/
def sqDevSum (rs : List Record) : ℚ :=
  (rs.map fun r => ((r.Latency : ℚ) - latencyMean rs) ^ 2).sum

/-- The sum of the squares of the latencies. -/
def latencySqSum (rs : List Record) : ℚ := (rs.map fun r => (r.Latency : ℚ) ^ 2).sum

/-- The sum of the sizes of a list of records. -/
def sizeSum (rs : List Record) : Int := (rs.map fun r => r.Size).sum

/-- The three records of the scenario, relative to a base instant. -/
def scenario (T0 : Time) : List Record :=
  [⟨100, T0.Add 10000000, 5000000⟩, ⟨200, T0.Add 20000000, 8000000⟩,
    ⟨150, T0.Add 30000000, 3000000⟩]

/-- The instant `t` is the minimum of `Timestamp - Latency` over `rs`. -/
def IsMinStart (t : Time) (rs : List Record) : Prop :=
  (∃ r ∈ rs, t.ns = r.Timestamp.ns - r.Latency) ∧
    ∀ r ∈ rs, t.ns ≤ r.Timestamp.ns - r.Latency

/-- The instant `t` is the maximum of `Timestamp` over `rs`. -/
def IsMaxEnd (t : Time) (rs : List Record) : Prop :=
  (∃ r ∈ rs, t = r.Timestamp) ∧ ∀ r ∈ rs, r.Timestamp.ns ≤ t.ns

/-- The product `delta1 * delta2` that `Add` of `r` adds to `moment2`. -/
def Perf.increment (p : Perf) (r : Record) : Float64 :=
  fmul (fsub (some (r.Latency : ℚ)) p.moment1)
    (fsub (some (r.Latency : ℚ)) (p.Add r).moment1)

/-- The `uint32` value `p.Values - 1` by which `LatencyStdev` divides. -/
def Perf.stdevDivisor (p : Perf) : Nat := (p.Values + (2 ^ 32 - 1)) % 2 ^ 32

/-! ## Field-by-field description of `Add` -/

theorem add_Values (p : Perf) (r : Record) :
    (p.Add r).Values = (p.Values + 1) % 2 ^ 32 := rfl

theorem add_Bytes (p : Perf) (r : Record) :
    (p.Add r).Bytes = (p.Bytes + toUint64 r.Size) % 2 ^ 64 := rfl

theorem add_EndTime (p : Perf) (r : Record) :
    (p.Add r).EndTime = if p.EndTime.ns < r.Timestamp.ns then r.Timestamp else p.EndTime := by
  simp [Perf.Add, Time.After]

theorem add_StartTime (p : Perf) (r : Record) :
    (p.Add r).StartTime =
      if p.StartTime.ns = 0 ∨ (proposalTS r).ns < p.StartTime.ns then proposalTS r
      else p.StartTime := by
  simp [Perf.Add, Time.IsZero, Time.Before]

theorem add_moment1 (p : Perf) (r : Record) :
    (p.Add r).moment1 =
      fadd p.moment1 (fdivBy (fsub (some (r.Latency : ℚ)) p.moment1)
        (((p.Values + 1) % 2 ^ 32 : Nat) : ℚ)) := rfl

theorem add_moment2 (p : Perf) (r : Record) :
    (p.Add r).moment2 =
      fadd p.moment2 (fmul (fsub (some (r.Latency : ℚ)) p.moment1)
        (fsub (some (r.Latency : ℚ)) (p.Add r).moment1)) := rfl

theorem addAll_nil (p : Perf) : addAll p [] = p := rfl

theorem addAll_cons (p : Perf) (r : Record) (rs : List Record) :
    addAll p (r :: rs) = addAll (p.Add r) rs := rfl

theorem addAll_snoc (p : Perf) (rs : List Record) (r : Record) :
    addAll p (rs ++ [r]) = (addAll p rs).Add r := by
  simp [addAll, List.foldl_append]

theorem addAll_append (p : Perf) (rs ss : List Record) :
    addAll p (rs ++ ss) = addAll (addAll p rs) ss := by
  simp [addAll, List.foldl_append]

/-! ## Counters -/

theorem addAll_Values (p : Perf) (rs : List Record) :
    (addAll p rs).Values = (p.Values + rs.length) % 2 ^ 32 ∨ (rs = [] ∧ (addAll p rs).Values = p.Values) := by
  induction rs using List.reverseRecOn with
  | nil => right; exact ⟨rfl, rfl⟩
  | append_singleton l a ih =>
    left
    rw [addAll_snoc, add_Values, List.length_append, List.length_singleton]
    rcases ih with h | ⟨h, h2⟩
    · rw [h]; omega
    · rw [h2, h]; simp

theorem addAll_Values_empty (rs : List Record) :
    (addAll Perf.empty rs).Values = rs.length % 2 ^ 32 := by
  rcases addAll_Values Perf.empty rs with h | ⟨h, h2⟩
  · rw [h]; simp [Perf.empty]
  · rw [h2, h]; simp [Perf.empty]

theorem addAll_Values_small (rs : List Record) (h : rs.length < 2 ^ 32) :
    (addAll Perf.empty rs).Values = rs.length := by
  rw [addAll_Values_empty]; exact Nat.mod_eq_of_lt h

theorem toUint64_cast (x : Int) : ((toUint64 x : Nat) : Int) = x % 2 ^ 64 := by
  unfold toUint64
  exact Int.toNat_of_nonneg (Int.emod_nonneg _ (by norm_num))

theorem addAll_Bytes (p : Perf) (rs : List Record) (hp : p.Bytes < 2 ^ 64) :
    ((addAll p rs).Bytes : Int) = ((p.Bytes : Int) + sizeSum rs) % 2 ^ 64 := by
  induction rs using List.reverseRecOn with
  | nil =>
    simp only [addAll_nil, sizeSum, List.map_nil, List.sum_nil, add_zero]
    omega
  | append_singleton l a ih =>
    rw [addAll_snoc, add_Bytes]
    have hs : sizeSum (l ++ [a]) = sizeSum l + a.Size := by simp [sizeSum]
    rw [hs]
    push_cast
    rw [ih, toUint64_cast]
    omega

theorem addAll_Bytes_empty (rs : List Record) :
    ((addAll Perf.empty rs).Bytes : Int) = sizeSum rs % 2 ^ 64 := by
  have h := addAll_Bytes Perf.empty rs (by simp [Perf.empty])
  simpa [Perf.empty] using h

/-! ## The measurement interval -/

theorem time_ext (t u : Time) (h : t.ns = u.ns) : t = u := by
  cases t; cases u; simp_all

theorem add_EndTime_ge (p : Perf) (r : Record) : p.EndTime.ns ≤ (p.Add r).EndTime.ns := by
  rw [add_EndTime]; split <;> omega

theorem add_EndTime_ge_ts (p : Perf) (r : Record) : r.Timestamp.ns ≤ (p.Add r).EndTime.ns := by
  rw [add_EndTime]; split <;> omega

theorem add_EndTime_cases (p : Perf) (r : Record) :
    (p.Add r).EndTime = p.EndTime ∨ (p.Add r).EndTime = r.Timestamp := by
  rw [add_EndTime]; split
  · right; rfl
  · left; rfl

theorem addAll_EndTime_ge (p : Perf) (rs : List Record) :
    p.EndTime.ns ≤ (addAll p rs).EndTime.ns := by
  induction rs using List.reverseRecOn with
  | nil => exact le_refl _
  | append_singleton l a ih =>
    rw [addAll_snoc]
    exact le_trans ih (add_EndTime_ge _ a)

theorem addAll_EndTime_ge_ts (p : Perf) (rs : List Record) :
    ∀ r ∈ rs, r.Timestamp.ns ≤ (addAll p rs).EndTime.ns := by
  induction rs using List.reverseRecOn with
  | nil => intro r hr; cases hr
  | append_singleton l a ih =>
    intro r hr
    rw [addAll_snoc]
    rcases List.mem_append.mp hr with h | h
    · exact le_trans (ih r h) (add_EndTime_ge _ a)
    · rw [List.mem_singleton.mp h]; exact add_EndTime_ge_ts _ a

theorem addAll_EndTime_cases (p : Perf) (rs : List Record) :
    (addAll p rs).EndTime = p.EndTime ∨ ∃ r ∈ rs, (addAll p rs).EndTime = r.Timestamp := by
  induction rs using List.reverseRecOn with
  | nil => left; rfl
  | append_singleton l a ih =>
    rw [addAll_snoc]
    rcases add_EndTime_cases (addAll p l) a with h | h
    · rw [h]
      rcases ih with h1 | ⟨r, hr, h1⟩
      · left; exact h1
      · right; exact ⟨r, List.mem_append_left _ hr, h1⟩
    · right; exact ⟨a, by simp, h⟩

theorem proposalTS_ns (r : Record) (h1 : -(2 ^ 63) < r.Latency) (h2 : r.Latency < 2 ^ 63) :
    (proposalTS r).ns = r.Timestamp.ns - r.Latency := by
  simp only [proposalTS, Time.Add, wrapInt64]
  omega

/-- From the empty state the start of the interval is the least of the
instants `proposalTS r`, provided none of them is the zero instant. -/
theorem addAll_StartTime_min (rs : List Record) (hne : rs ≠ [])
    (hz : ∀ r ∈ rs, (proposalTS r).ns ≠ 0) :
    (∃ r ∈ rs, (addAll Perf.empty rs).StartTime = proposalTS r) ∧
      ∀ r ∈ rs, (addAll Perf.empty rs).StartTime.ns ≤ (proposalTS r).ns := by
  induction rs using List.reverseRecOn with
  | nil => exact absurd rfl hne
  | append_singleton l a ih =>
    rw [addAll_snoc, add_StartTime]
    by_cases hl : l = []
    · subst hl
      simp [addAll_nil, Perf.empty, Time.zero]
    · have hz1 : ∀ r ∈ l, (proposalTS r).ns ≠ 0 := fun r hr => hz r (List.mem_append_left _ hr)
      obtain ⟨⟨m, hm, hme⟩, hmin⟩ := ih hl hz1
      have hm0 : (addAll Perf.empty l).StartTime.ns ≠ 0 := by rw [hme]; exact hz1 m hm
      split
      · rename_i hc
        have hlt : (proposalTS a).ns < (addAll Perf.empty l).StartTime.ns := by
          rcases hc with hc | hc
          · exact absurd hc hm0
          · exact hc
        refine ⟨⟨a, by simp, rfl⟩, ?_⟩
        intro r hr
        rcases List.mem_append.mp hr with h | h
        · have := hmin r h; omega
        · rw [List.mem_singleton.mp h]
      · rename_i hc
        have hge : (addAll Perf.empty l).StartTime.ns ≤ (proposalTS a).ns := by
          by_contra hcon
          exact hc (Or.inr (by omega))
        refine ⟨⟨m, List.mem_append_left _ hm, hme⟩, ?_⟩
        intro r hr
        rcases List.mem_append.mp hr with h | h
        · exact hmin r h
        · rw [List.mem_singleton.mp h]; exact hge

/-! ## The Welford update -/

theorem latencySum_snoc (l : List Record) (a : Record) :
    latencySum (l ++ [a]) = latencySum l + (a.Latency : ℚ) := by
  simp [latencySum]

theorem latencySqSum_snoc (l : List Record) (a : Record) :
    latencySqSum (l ++ [a]) = latencySqSum l + (a.Latency : ℚ) ^ 2 := by
  simp [latencySqSum]

theorem latencySum_eq_zero_of_nil (l : List Record) (h : l.length = 0) :
    latencySum l = 0 ∧ latencySqSum l = 0 := by
  have : l = [] := List.length_eq_zero.mp h
  subst this
  simp [latencySum, latencySqSum]

/-- The sum of squared deviations from any centre `c`. -/
theorem sqDev_expand (c : ℚ) (rs : List Record) :
    (rs.map fun r => ((r.Latency : ℚ) - c) ^ 2).sum =
      latencySqSum rs - 2 * c * latencySum rs + (rs.length : ℚ) * c ^ 2 := by
  induction rs with
  | nil => simp [latencySqSum, latencySum]
  | cons a l ih =>
    simp only [List.map_cons, List.sum_cons, List.length_cons, latencySqSum, latencySum] at ih ⊢
    rw [ih]
    push_cast
    ring

theorem sqDevSum_eq (rs : List Record) :
    sqDevSum rs = latencySqSum rs - latencySum rs ^ 2 / (rs.length : ℚ) := by
  unfold sqDevSum
  rw [sqDev_expand]
  unfold latencyMean
  by_cases h : rs.length = 0
  · obtain ⟨h1, h2⟩ := latencySum_eq_zero_of_nil rs h
    simp [h, h1, h2]
  · have hq : (rs.length : ℚ) ≠ 0 := by exact_mod_cast h
    field_simp
    ring

/-- The Welford invariant: after fewer than `2^32` records the two moments
are the mean and the sum of squares less the squared sum over the count. -/
theorem addAll_moments (rs : List Record) (hlen : rs.length < 2 ^ 32) :
    (addAll Perf.empty rs).moment1 = some (latencySum rs / (rs.length : ℚ)) ∧
      (addAll Perf.empty rs).moment2 =
        some (latencySqSum rs - latencySum rs ^ 2 / (rs.length : ℚ)) := by
  induction rs using List.reverseRecOn with
  | nil => simp [addAll_nil, Perf.empty, latencySum, latencySqSum]
  | append_singleton l a ih =>
    have hl : l.length + 1 < 2 ^ 32 := by simpa using hlen
    obtain ⟨h1, h2⟩ := ih (by omega)
    have hv : (addAll Perf.empty l).Values = l.length := addAll_Values_small l (by omega)
    have hmod : (l.length + 1) % 2 ^ 32 = l.length + 1 := Nat.mod_eq_of_lt hl
    have hne : ((l.length + 1 : Nat) : ℚ) ≠ 0 := by
      exact_mod_cast Nat.succ_ne_zero l.length
    have hm1 : ((addAll Perf.empty l).Add a).moment1 =
        some (latencySum (l ++ [a]) / ((l ++ [a]).length : ℚ)) := by
      rw [add_moment1, h1, hv, hmod, latencySum_snoc, List.length_append, List.length_singleton]
      simp only [fsub, fdivBy, fadd, if_neg hne]
      congr 1
      by_cases h0 : l.length = 0
      · obtain ⟨hs, _⟩ := latencySum_eq_zero_of_nil l h0
        simp [h0, hs]
      · have hq : (l.length : ℚ) ≠ 0 := by exact_mod_cast h0
        push_cast at hne ⊢
        field_simp
        ring
    rw [addAll_snoc]
    refine ⟨hm1, ?_⟩
    rw [add_moment2, hm1, h1, h2, latencySum_snoc, latencySqSum_snoc, List.length_append,
      List.length_singleton]
    simp only [fsub, fmul, fadd]
    congr 1
    by_cases h0 : l.length = 0
    · obtain ⟨hs, hs2⟩ := latencySum_eq_zero_of_nil l h0
      simp [h0, hs, hs2]
    · have hq : (l.length : ℚ) ≠ 0 := by exact_mod_cast h0
      push_cast at hne ⊢
      field_simp
      ring

/-! ## Latency mean and variance -/

/-- C1: for a non-empty sequence of fewer than `2^32` records added one by
one to the empty accumulator, `moment1`, the value `LatencyMean` converts to
a duration, is the arithmetic mean of the latencies. -/
theorem moment1_eq_mean (rs : List Record) (_hne : rs ≠ []) (hlen : rs.length < 2 ^ 32) :
    (addAll Perf.empty rs).moment1 = some (latencyMean rs) ∧
      (addAll Perf.empty rs).LatencyMean = toDuration (some (latencyMean rs)) := by
  have h := (addAll_moments rs hlen).1
  refine ⟨h, ?_⟩
  unfold Perf.LatencyMean
  rw [h]
  rfl

/-- Witness of C1 on two records with latencies 5 and 8. -/
theorem moment1_eq_mean_witness :
    ([⟨100, ⟨10⟩, 5⟩, ⟨200, ⟨20⟩, 8⟩] : List Record) ≠ [] ∧
      ([⟨100, ⟨10⟩, 5⟩, ⟨200, ⟨20⟩, 8⟩] : List Record).length < 2 ^ 32 ∧
      (addAll Perf.empty [⟨100, ⟨10⟩, 5⟩, ⟨200, ⟨20⟩, 8⟩]).moment1 =
        some (latencyMean [⟨100, ⟨10⟩, 5⟩, ⟨200, ⟨20⟩, 8⟩]) :=
  ⟨by simp, by simp,
    (moment1_eq_mean [⟨100, ⟨10⟩, 5⟩, ⟨200, ⟨20⟩, 8⟩] (by simp) (by simp)).1⟩

/-- C2: for a sequence of `n` records, `2 ≤ n < 2^32`, added one by one to
the empty accumulator, `moment2` is the two-pass sum of squared deviations
from the mean, and the variance `LatencyStdev` takes the square root of is
that sum over `n - 1`, the Bessel-corrected sample variance. -/
theorem moment2_eq_sqDevSum (rs : List Record) (h2 : 2 ≤ rs.length)
    (hlen : rs.length < 2 ^ 32) :
    (addAll Perf.empty rs).moment2 = some (sqDevSum rs) ∧
      (addAll Perf.empty rs).variance = some (sqDevSum rs / ((rs.length : ℚ) - 1)) ∧
      (addAll Perf.empty rs).LatencyStdev =
        sqrtToDuration (some (sqDevSum rs / ((rs.length : ℚ) - 1))) := by
  have hm : (addAll Perf.empty rs).moment2 = some (sqDevSum rs) := by
    rw [sqDevSum_eq]; exact (addAll_moments rs hlen).2
  have hv : (addAll Perf.empty rs).variance = some (sqDevSum rs / ((rs.length : ℚ) - 1)) := by
    unfold Perf.variance
    rw [hm, addAll_Values_small rs hlen]
    have hmod : (rs.length + (2 ^ 32 - 1)) % 2 ^ 32 = rs.length - 1 := by omega
    rw [hmod]
    have hcast : ((rs.length - 1 : Nat) : ℚ) = (rs.length : ℚ) - 1 := by
      rw [Nat.cast_sub (by omega)]; simp
    have hne : (rs.length : ℚ) - 1 ≠ 0 := by
      rw [← hcast]
      have : rs.length - 1 ≠ 0 := by omega
      exact_mod_cast this
    rw [hcast]
    simp only [fdivBy, if_neg hne]
  refine ⟨hm, hv, ?_⟩
  unfold Perf.LatencyStdev
  rw [hv]

/-- Witness of C2 on two records with latencies 5 and 8. -/
theorem moment2_eq_sqDevSum_witness :
    2 ≤ ([⟨100, ⟨10⟩, 5⟩, ⟨200, ⟨20⟩, 8⟩] : List Record).length ∧
      ([⟨100, ⟨10⟩, 5⟩, ⟨200, ⟨20⟩, 8⟩] : List Record).length < 2 ^ 32 ∧
      (addAll Perf.empty [⟨100, ⟨10⟩, 5⟩, ⟨200, ⟨20⟩, 8⟩]).moment2 =
        some (sqDevSum [⟨100, ⟨10⟩, 5⟩, ⟨200, ⟨20⟩, 8⟩]) :=
  ⟨by simp, by simp,
    (moment2_eq_sqDevSum [⟨100, ⟨10⟩, 5⟩, ⟨200, ⟨20⟩, 8⟩] (by simp) (by simp)).1⟩

/-! ## Start and end of the interval -/

/-- C3, as stated, fails: a first record whose `Timestamp - Latency` is the
zero instant leaves `StartTime` looking unset, so the second record, whose
`Timestamp - Latency` is 7, overwrites it; the final `StartTime` is 7 and
not the minimum 0. -/
theorem startTime_not_min :
    (addAll Perf.empty [⟨0, ⟨5⟩, 5⟩, ⟨0, ⟨9⟩, 2⟩]).StartTime.ns = 7 ∧
      ¬ IsMinStart (addAll Perf.empty [⟨0, ⟨5⟩, 5⟩, ⟨0, ⟨9⟩, 2⟩]).StartTime
        [⟨0, ⟨5⟩, 5⟩, ⟨0, ⟨9⟩, 2⟩] := by
  have h : (addAll Perf.empty [⟨0, ⟨5⟩, 5⟩, ⟨0, ⟨9⟩, 2⟩]).StartTime.ns = 7 := by decide
  refine ⟨h, ?_⟩
  intro hmin
  have h5 := hmin.2 ⟨0, ⟨5⟩, 5⟩ (by simp)
  rw [h] at h5
  simp at h5

/-- C3, amended: for a non-empty sequence of records, none with the least
`int64` latency and none with `Timestamp - Latency` at the zero instant,
added one by one to the empty accumulator, the final `StartTime` is the
minimum of `Timestamp - Latency` over the records. -/
theorem startTime_eq_min (rs : List Record) (hne : rs ≠ [])
    (hlat : ∀ r ∈ rs, -(2 ^ 63) < r.Latency ∧ r.Latency < 2 ^ 63)
    (hz : ∀ r ∈ rs, r.Timestamp.ns - r.Latency ≠ 0) :
    IsMinStart (addAll Perf.empty rs).StartTime rs := by
  have hp : ∀ r ∈ rs, (proposalTS r).ns = r.Timestamp.ns - r.Latency :=
    fun r hr => proposalTS_ns r (hlat r hr).1 (hlat r hr).2
  have hz1 : ∀ r ∈ rs, (proposalTS r).ns ≠ 0 := fun r hr => by rw [hp r hr]; exact hz r hr
  obtain ⟨⟨m, hm, hme⟩, hmin⟩ := addAll_StartTime_min rs hne hz1
  refine ⟨⟨m, hm, ?_⟩, ?_⟩
  · rw [hme]; exact hp m hm
  · intro r hr
    rw [← hp r hr]; exact hmin r hr

/-- Witness of C3 amended on two records with starts 5 and 12. -/
theorem startTime_eq_min_witness :
    IsMinStart (addAll Perf.empty [⟨100, ⟨10⟩, 5⟩, ⟨200, ⟨20⟩, 8⟩]).StartTime
      [⟨100, ⟨10⟩, 5⟩, ⟨200, ⟨20⟩, 8⟩] :=
  startTime_eq_min [⟨100, ⟨10⟩, 5⟩, ⟨200, ⟨20⟩, 8⟩] (by simp) (by simp) (by simp)

/-- C4, as stated, fails: on the empty accumulator, whose `EndTime` is the
zero instant, adding a record stamped one nanosecond before the zero instant
leaves `EndTime` at the zero instant, which is not that `Timestamp`. -/
theorem endTime_not_max :
    (Perf.empty.Add ⟨0, ⟨-1⟩, 0⟩).EndTime = Time.zero ∧
      ¬ IsMaxEnd (addAll Perf.empty [⟨0, ⟨-1⟩, 0⟩]).EndTime [⟨0, ⟨-1⟩, 0⟩] := by
  have h : (Perf.empty.Add ⟨0, ⟨-1⟩, 0⟩).EndTime = Time.zero := by decide
  refine ⟨h, ?_⟩
  intro hmax
  obtain ⟨r, hr, he⟩ := hmax.1
  rw [List.mem_singleton.mp hr] at he
  have h2 : (addAll Perf.empty [⟨0, ⟨-1⟩, 0⟩]).EndTime = Time.zero := h
  rw [h2] at he
  simp [Time.zero] at he

/-- C4, amended: for every sequence of records added one by one to the empty
accumulator, the final `EndTime` is the later of the zero instant and the
latest `Timestamp`, hence the maximum `Timestamp` as soon as one record is
stamped at or after the zero instant; and on an accumulator whose `EndTime`
is the zero instant, `Add` of a record stamped at or after the zero instant
sets `EndTime` to that `Timestamp`. -/
theorem endTime_eq_max (p : Perf) (r : Record) (rs : List Record)
    (hp : p.EndTime = Time.zero) (hr : 0 ≤ r.Timestamp.ns) :
    (p.Add r).EndTime = r.Timestamp ∧
      (0 ≤ (addAll Perf.empty rs).EndTime.ns ∧
        (∀ x ∈ rs, x.Timestamp.ns ≤ (addAll Perf.empty rs).EndTime.ns) ∧
        ((addAll Perf.empty rs).EndTime = Time.zero ∨
          ∃ x ∈ rs, (addAll Perf.empty rs).EndTime = x.Timestamp)) ∧
      ((∃ x ∈ rs, 0 ≤ x.Timestamp.ns) → IsMaxEnd (addAll Perf.empty rs).EndTime rs) := by
  have hge := addAll_EndTime_ge Perf.empty rs
  have hts := addAll_EndTime_ge_ts Perf.empty rs
  have hcs := addAll_EndTime_cases Perf.empty rs
  refine ⟨?_, ⟨hge, hts, hcs⟩, ?_⟩
  · rw [add_EndTime, hp]
    split
    · rfl
    · apply time_ext
      have : (Time.zero).ns = 0 := rfl
      omega
  · rintro ⟨x, hx, hx0⟩
    refine ⟨?_, hts⟩
    rcases hcs with h | h
    · refine ⟨x, hx, time_ext _ _ ?_⟩
      have h1 := hts x hx
      have h2 : (addAll Perf.empty rs).EndTime.ns = 0 := by rw [h]; rfl
      omega
    · exact h

/-- Witness of C4 amended on the empty accumulator and two records. -/
theorem endTime_eq_max_witness :
    (Perf.empty.Add ⟨100, ⟨10⟩, 5⟩).EndTime = (⟨10⟩ : Time) ∧
      IsMaxEnd (addAll Perf.empty [⟨100, ⟨10⟩, 5⟩, ⟨200, ⟨20⟩, 8⟩]).EndTime
        [⟨100, ⟨10⟩, 5⟩, ⟨200, ⟨20⟩, 8⟩] :=
  have h := endTime_eq_max Perf.empty ⟨100, ⟨10⟩, 5⟩ [⟨100, ⟨10⟩, 5⟩, ⟨200, ⟨20⟩, 8⟩]
    rfl (by simp)
  ⟨h.1, h.2.2 ⟨⟨100, ⟨10⟩, 5⟩, by simp, by simp⟩⟩

/-! ## Byte accounting -/

/-- C5: for records with non-negative sizes added one by one to the empty
accumulator, `Bytes` is the sum of the sizes modulo `2^64`, hence the exact
sum whenever that sum is below `2^64`. -/
theorem bytes_eq_sum (rs : List Record) (hs : ∀ r ∈ rs, 0 ≤ r.Size) :
    ((addAll Perf.empty rs).Bytes : Int) = sizeSum rs % 2 ^ 64 ∧
      (sizeSum rs < 2 ^ 64 → ((addAll Perf.empty rs).Bytes : Int) = sizeSum rs) := by
  have h := addAll_Bytes_empty rs
  refine ⟨h, ?_⟩
  intro hlt
  have h0 : 0 ≤ sizeSum rs := by
    unfold sizeSum
    apply List.sum_nonneg
    intro x hx
    obtain ⟨r, hr, rfl⟩ := List.mem_map.mp hx
    exact hs r hr
  rw [h]
  exact Int.emod_eq_of_lt h0 hlt

/-- Witness of C5 on two records of sizes 100 and 200. -/
theorem bytes_eq_sum_witness :
    ((addAll Perf.empty [⟨100, ⟨10⟩, 5⟩, ⟨200, ⟨20⟩, 8⟩]).Bytes : Int) = 300 := by
  have h := bytes_eq_sum [⟨100, ⟨10⟩, 5⟩, ⟨200, ⟨20⟩, 8⟩] (by simp)
  exact (h.2 (by decide)).trans (by decide)

/-! ## The three-record scenario -/

theorem scenario_state (T0 : Time) (h : 0 ≤ T0.ns) :
    addAll Perf.empty (scenario T0) =
      ⟨3, 450, T0.Add 5000000, T0.Add 30000000, some (16000000 / 3),
        some (38000000000000 / 3)⟩ := by
  have e1 : Perf.empty.Add ⟨100, T0.Add 10000000, 5000000⟩ =
      ⟨1, 100, T0.Add 5000000, T0.Add 10000000, some 5000000, some 0⟩ := by
    rw [Perf.mk.injEq]
    refine ⟨rfl, rfl, ?_, ?_, ?_, ?_⟩
    · rw [add_StartTime]; simp [Perf.empty, Time.zero, proposalTS, Time.Add, wrapInt64]; omega
    · rw [add_EndTime]; simp [Perf.empty, Time.zero, Time.Add]; intro; omega
    · rw [add_moment1]; simp [Perf.empty, fsub, fadd, fdivBy]
    · rw [add_moment2, add_moment1]; simp [Perf.empty, fsub, fadd, fdivBy, fmul]
  have e2 : (⟨1, 100, T0.Add 5000000, T0.Add 10000000, some 5000000, some 0⟩ : Perf).Add
      ⟨200, T0.Add 20000000, 8000000⟩ =
      ⟨2, 300, T0.Add 5000000, T0.Add 20000000, some 6500000, some 4500000000000⟩ := by
    rw [Perf.mk.injEq]
    refine ⟨rfl, rfl, ?_, ?_, ?_, ?_⟩
    · rw [add_StartTime]; simp [proposalTS, Time.Add, wrapInt64]; omega
    · rw [add_EndTime]; simp [Time.Add]
    · rw [add_moment1]; simp [fsub, fadd, fdivBy]; norm_num
    · rw [add_moment2, add_moment1]; simp [fsub, fadd, fdivBy, fmul]; norm_num
  have e3 : (⟨2, 300, T0.Add 5000000, T0.Add 20000000, some 6500000,
      some 4500000000000⟩ : Perf).Add ⟨150, T0.Add 30000000, 3000000⟩ =
      ⟨3, 450, T0.Add 5000000, T0.Add 30000000, some (16000000 / 3),
        some (38000000000000 / 3)⟩ := by
    rw [Perf.mk.injEq]
    refine ⟨rfl, rfl, ?_, ?_, ?_, ?_⟩
    · rw [add_StartTime]; simp [proposalTS, Time.Add, wrapInt64]; omega
    · rw [add_EndTime]; simp [Time.Add]
    · rw [add_moment1]; simp [fsub, fadd, fdivBy]; norm_num
    · rw [add_moment2, add_moment1]; simp [fsub, fadd, fdivBy, fmul]; norm_num
  rw [scenario, addAll_cons, addAll_cons, addAll_cons, addAll_nil, e1, e2, e3]

/-- C6: for a base instant `T0` not earlier than the zero instant, the three
records (100, T0+10ms, 5ms), (200, T0+20ms, 8ms), (150, T0+30ms, 3ms) added
in this order to the empty accumulator give `Values = 3`, `Bytes = 450`,
`StartTime = T0+5ms`, `EndTime = T0+30ms`, a window of 25ms,
`ValuesPerSec = 120`, `Mbps = 18/125`, `moment1 = 16/3 ms` and a sample
variance of `19/3 ms^2`; the durations returned are 5333333ns for the mean
and 2516611ns for the standard deviation. -/
theorem scenario_metrics (T0 : Time) (h : 0 ≤ T0.ns) :
    (addAll Perf.empty (scenario T0)).Values = 3 ∧
      (addAll Perf.empty (scenario T0)).Bytes = 450 ∧
      (addAll Perf.empty (scenario T0)).StartTime = T0.Add 5000000 ∧
      (addAll Perf.empty (scenario T0)).EndTime = T0.Add 30000000 ∧
      (addAll Perf.empty (scenario T0)).EndTime.Sub (addAll Perf.empty (scenario T0)).StartTime
        = 25000000 ∧
      (addAll Perf.empty (scenario T0)).ValuesPerSec = some 120 ∧
      (addAll Perf.empty (scenario T0)).Mbps = some (18 / 125) ∧
      (addAll Perf.empty (scenario T0)).moment1 = some (16 / 3 * 1000000) ∧
      (addAll Perf.empty (scenario T0)).variance = some (19 / 3 * 1000000 ^ 2) ∧
      (addAll Perf.empty (scenario T0)).LatencyMean = some 5333333 ∧
      (addAll Perf.empty (scenario T0)).LatencyStdev = some 2516611 := by
  rw [scenario_state T0 h]
  have hsub : (T0.Add 30000000).Sub (T0.Add 5000000) = 25000000 := by
    simp [Time.Sub, Time.Add, minDuration, maxDuration]
  refine ⟨rfl, rfl, rfl, rfl, hsub, ?_, ?_, ?_, ?_, ?_, ?_⟩
  · simp only [Perf.ValuesPerSec, hsub, Seconds, fdivBy]; norm_num
  · simp only [Perf.Mbps, hsub, Seconds, fdivBy, fmul]; norm_num
  · norm_num
  · simp only [Perf.variance, fdivBy]; norm_num
  · have hf : ⌊(16000000 / 3 : ℚ)⌋ = 5333333 := by
      rw [Int.floor_eq_iff]; norm_num
    simp only [Perf.LatencyMean, toDuration]
    rw [if_pos (show (0 : ℚ) ≤ 16000000 / 3 by norm_num), hf,
      if_pos ⟨by unfold minDuration; norm_num, by unfold maxDuration; norm_num⟩]
  · have hvar : (⟨3, 450, T0.Add 5000000, T0.Add 30000000, some (16000000 / 3),
        some (38000000000000 / 3)⟩ : Perf).variance = some (19 / 3 * 1000000 ^ 2) := by
      simp only [Perf.variance, fdivBy]; norm_num
    have hf : ⌊(19 / 3 * 1000000 ^ 2 : ℚ)⌋ = 6333333333333 := by
      rw [Int.floor_eq_iff]; norm_num
    have hs : Nat.sqrt 6333333333333 = 2516611 := by
      symm; rw [Nat.eq_sqrt]; constructor <;> norm_num
    have ht : (6333333333333 : Int).toNat = 6333333333333 := rfl
    unfold Perf.LatencyStdev
    rw [hvar]
    simp only [sqrtToDuration]
    rw [if_pos (show (0 : ℚ) ≤ 19 / 3 * 1000000 ^ 2 by norm_num), hf, ht, hs,
      if_pos (by unfold maxDuration; norm_num)]
    rfl

/-- Witness of C6 at the base instant one second after the zero instant. -/
theorem scenario_metrics_witness :
    (0 : Int) ≤ (⟨1000000000⟩ : Time).ns ∧
      (addAll Perf.empty (scenario ⟨1000000000⟩)).ValuesPerSec = some 120 ∧
      (addAll Perf.empty (scenario ⟨1000000000⟩)).Mbps = some (18 / 125) :=
  have h := scenario_metrics ⟨1000000000⟩ (by decide)
  ⟨by decide, h.2.2.2.2.2.1, h.2.2.2.2.2.2.1⟩

/-! ## Reset -/

/-- C7: for every accumulator state, `Reset` yields the state of a freshly
constructed accumulator, so every derived metric read after `Reset` equals
the same read on a fresh accumulator, and `Reset` is idempotent. -/
theorem reset_eq_empty (p : Perf) :
    p.Reset = Perf.empty ∧
      (p.Reset.Values = 0 ∧ p.Reset.Bytes = 0 ∧ p.Reset.StartTime = Time.zero ∧
        p.Reset.EndTime = Time.zero ∧ p.Reset.moment1 = some 0 ∧ p.Reset.moment2 = some 0) ∧
      (p.Reset.ValuesPerSec = Perf.empty.ValuesPerSec ∧ p.Reset.Mbps = Perf.empty.Mbps ∧
        p.Reset.LatencyMean = Perf.empty.LatencyMean ∧
        p.Reset.LatencyStdev = Perf.empty.LatencyStdev) ∧
      p.Reset.Reset = p.Reset :=
  ⟨rfl, ⟨rfl, rfl, rfl, rfl, rfl, rfl⟩, ⟨rfl, rfl, rfl, rfl⟩, rfl⟩

/-! ## Order of the records -/

theorem sizeSum_perm (rs ss : List Record) (h : rs.Perm ss) : sizeSum rs = sizeSum ss := by
  unfold sizeSum
  exact (h.map _).sum_eq

theorem latencySum_perm (rs ss : List Record) (h : rs.Perm ss) :
    latencySum rs = latencySum ss := by
  unfold latencySum
  exact (h.map _).sum_eq

theorem latencySqSum_perm (rs ss : List Record) (h : rs.Perm ss) :
    latencySqSum rs = latencySqSum ss := by
  unfold latencySqSum
  exact (h.map _).sum_eq

theorem addAll_EndTime_le_of_subset (rs ss : List Record) (h : ∀ r ∈ rs, r ∈ ss) :
    (addAll Perf.empty rs).EndTime.ns ≤ (addAll Perf.empty ss).EndTime.ns := by
  rcases addAll_EndTime_cases Perf.empty rs with h1 | ⟨r, hr, h1⟩
  · rw [h1]; exact addAll_EndTime_ge Perf.empty ss
  · rw [h1]; exact addAll_EndTime_ge_ts Perf.empty ss r (h r hr)

/-- C8, as stated, fails: the records (Timestamp 5ns, Latency 5ns) and
(Timestamp 9ns, Latency 2ns) give `StartTime` 7ns in this order and the zero
instant in the other order. -/
theorem startTime_order_dependent :
    List.Perm ([⟨0, ⟨5⟩, 5⟩, ⟨0, ⟨9⟩, 2⟩] : List Record) [⟨0, ⟨9⟩, 2⟩, ⟨0, ⟨5⟩, 5⟩] ∧
      (addAll Perf.empty [⟨0, ⟨5⟩, 5⟩, ⟨0, ⟨9⟩, 2⟩]).StartTime.ns = 7 ∧
      (addAll Perf.empty [⟨0, ⟨9⟩, 2⟩, ⟨0, ⟨5⟩, 5⟩]).StartTime.ns = 0 ∧
      (addAll Perf.empty [⟨0, ⟨5⟩, 5⟩, ⟨0, ⟨9⟩, 2⟩]).StartTime ≠
        (addAll Perf.empty [⟨0, ⟨9⟩, 2⟩, ⟨0, ⟨5⟩, 5⟩]).StartTime := by
  refine ⟨List.Perm.swap _ _ _, by decide, by decide, by decide⟩

/-- C8, amended: adding a list and adding a permutation of it to the empty
accumulator yield the same `Values`, the same `Bytes` and the same
`EndTime`, and the same `StartTime` provided no record's proposed start
`Timestamp.Add(-1 * Latency)` is the zero instant. -/
theorem perm_counters_interval (rs ss : List Record) (hperm : rs.Perm ss) :
    (addAll Perf.empty rs).Values = (addAll Perf.empty ss).Values ∧
      (addAll Perf.empty rs).Bytes = (addAll Perf.empty ss).Bytes ∧
      (addAll Perf.empty rs).EndTime = (addAll Perf.empty ss).EndTime ∧
      ((∀ r ∈ rs, proposalTS r ≠ Time.zero) →
        (addAll Perf.empty rs).StartTime = (addAll Perf.empty ss).StartTime) := by
  refine ⟨?_, ?_, ?_, ?_⟩
  · rw [addAll_Values_empty, addAll_Values_empty, hperm.length_eq]
  · have h1 := addAll_Bytes_empty rs
    have h2 := addAll_Bytes_empty ss
    rw [sizeSum_perm rs ss hperm] at h1
    exact_mod_cast h1.trans h2.symm
  · apply time_ext
    apply le_antisymm
    · exact addAll_EndTime_le_of_subset rs ss (fun r hr => hperm.subset hr)
    · exact addAll_EndTime_le_of_subset ss rs (fun r hr => hperm.symm.subset hr)
  · intro hz
    by_cases hne : rs = []
    · subst hne
      rw [List.nil_perm.mp hperm]
    · have hne2 : ss ≠ [] := fun h => hne (by rw [h] at hperm; exact List.perm_nil.mp hperm)
      have hz1 : ∀ r ∈ rs, (proposalTS r).ns ≠ 0 := fun r hr h0 =>
        hz r hr (time_ext _ _ h0)
      have hz2 : ∀ r ∈ ss, (proposalTS r).ns ≠ 0 := fun r hr =>
        hz1 r (hperm.symm.subset hr)
      obtain ⟨⟨a, ha, hae⟩, hmin1⟩ := addAll_StartTime_min rs hne hz1
      obtain ⟨⟨b, hb, hbe⟩, hmin2⟩ := addAll_StartTime_min ss hne2 hz2
      apply time_ext
      apply le_antisymm
      · rw [hbe]; exact hmin1 b (hperm.symm.subset hb)
      · rw [hae]; exact hmin2 a (hperm.subset ha)

/-- Witness of C8 amended on two records swapped. -/
theorem perm_counters_interval_witness :
    (addAll Perf.empty [⟨100, ⟨10⟩, 5⟩, ⟨200, ⟨20⟩, 8⟩]).EndTime =
        (addAll Perf.empty [⟨200, ⟨20⟩, 8⟩, ⟨100, ⟨10⟩, 5⟩]).EndTime ∧
      (addAll Perf.empty [⟨100, ⟨10⟩, 5⟩, ⟨200, ⟨20⟩, 8⟩]).StartTime =
        (addAll Perf.empty [⟨200, ⟨20⟩, 8⟩, ⟨100, ⟨10⟩, 5⟩]).StartTime :=
  have h := perm_counters_interval [⟨100, ⟨10⟩, 5⟩, ⟨200, ⟨20⟩, 8⟩]
    [⟨200, ⟨20⟩, 8⟩, ⟨100, ⟨10⟩, 5⟩] (List.Perm.swap _ _ _)
  ⟨h.2.2.1, h.2.2.2 (by decide)⟩

/-- C9: adding a list of fewer than `2^32` records and adding a permutation
of it to the empty accumulator yield, in exact arithmetic, the same
`moment1` and the same `moment2`, hence the same `LatencyMean` and
`LatencyStdev`. -/
theorem perm_moments (rs ss : List Record) (hperm : rs.Perm ss) (hlen : rs.length < 2 ^ 32) :
    (addAll Perf.empty rs).moment1 = (addAll Perf.empty ss).moment1 ∧
      (addAll Perf.empty rs).moment2 = (addAll Perf.empty ss).moment2 ∧
      (addAll Perf.empty rs).LatencyMean = (addAll Perf.empty ss).LatencyMean ∧
      (addAll Perf.empty rs).LatencyStdev = (addAll Perf.empty ss).LatencyStdev := by
  have hlen2 : ss.length < 2 ^ 32 := by rw [← hperm.length_eq]; exact hlen
  obtain ⟨a1, a2⟩ := addAll_moments rs hlen
  obtain ⟨b1, b2⟩ := addAll_moments ss hlen2
  have h1 : (addAll Perf.empty rs).moment1 = (addAll Perf.empty ss).moment1 := by
    rw [a1, b1, latencySum_perm rs ss hperm, hperm.length_eq]
  have h2 : (addAll Perf.empty rs).moment2 = (addAll Perf.empty ss).moment2 := by
    rw [a2, b2, latencySum_perm rs ss hperm, latencySqSum_perm rs ss hperm, hperm.length_eq]
  have hv : (addAll Perf.empty rs).Values = (addAll Perf.empty ss).Values := by
    rw [addAll_Values_empty, addAll_Values_empty, hperm.length_eq]
  refine ⟨h1, h2, ?_, ?_⟩
  · unfold Perf.LatencyMean; rw [h1]
  · unfold Perf.LatencyStdev Perf.variance; rw [h2, hv]

/-- Witness of C9 on two records swapped. -/
theorem perm_moments_witness :
    ([⟨100, ⟨10⟩, 5⟩, ⟨200, ⟨20⟩, 8⟩] : List Record).length < 2 ^ 32 ∧
      (addAll Perf.empty [⟨100, ⟨10⟩, 5⟩, ⟨200, ⟨20⟩, 8⟩]).moment1 =
        (addAll Perf.empty [⟨200, ⟨20⟩, 8⟩, ⟨100, ⟨10⟩, 5⟩]).moment1 ∧
      (addAll Perf.empty [⟨100, ⟨10⟩, 5⟩, ⟨200, ⟨20⟩, 8⟩]).moment2 =
        (addAll Perf.empty [⟨200, ⟨20⟩, 8⟩, ⟨100, ⟨10⟩, 5⟩]).moment2 :=
  have h := perm_moments [⟨100, ⟨10⟩, 5⟩, ⟨200, ⟨20⟩, 8⟩]
    [⟨200, ⟨20⟩, 8⟩, ⟨100, ⟨10⟩, 5⟩] (List.Perm.swap _ _ _) (by simp)
  ⟨by simp, h.1, h.2.1⟩

/-! ## Reachable states -/

theorem run_snoc (p : Perf) (ops : List Op) (op : Op) :
    run p (ops ++ [op]) = step (run p ops) op := by
  simp [run, List.foldl_append]

theorem addsSinceReset_snoc_add (ops : List Op) (r : Record) :
    addsSinceReset (ops ++ [Op.add r]) = addsSinceReset ops + 1 := by
  simp [addsSinceReset, List.foldl_append]

theorem addsSinceReset_snoc_reset (ops : List Op) :
    addsSinceReset (ops ++ [Op.reset]) = 0 := by
  simp [addsSinceReset, List.foldl_append]

/-- A state reached from the empty one is the empty state followed by the
records added after the last `Reset`. -/
theorem run_eq_addAll (ops : List Op) :
    ∃ rs : List Record, run Perf.empty ops = addAll Perf.empty rs ∧
      rs.length = addsSinceReset ops := by
  induction ops using List.reverseRecOn with
  | nil => exact ⟨[], rfl, rfl⟩
  | append_singleton l op ih =>
    obtain ⟨rs, hrs, hlen⟩ := ih
    cases op with
    | add r =>
      refine ⟨rs ++ [r], ?_, ?_⟩
      · rw [run_snoc, addAll_snoc, hrs]; rfl
      · rw [addsSinceReset_snoc_add, List.length_append, hlen]; rfl
    | reset =>
      refine ⟨[], ?_, ?_⟩
      · rw [run_snoc]; rfl
      · rw [addsSinceReset_snoc_reset]; rfl

theorem run_replicate_add (n : Nat) (p : Perf) (r : Record) :
    run p (List.replicate n (Op.add r)) = addAll p (List.replicate n r) := by
  induction n generalizing p with
  | zero => rfl
  | succ k ih =>
    rw [List.replicate_succ, List.replicate_succ]
    exact ih (p.Add r)

theorem sizeSum_replicate (n : Nat) (r : Record) :
    sizeSum (List.replicate n r) = (n : Int) * r.Size := by
  unfold sizeSum
  rw [List.map_replicate, List.sum_replicate, nsmul_eq_mul]

/-- C10, as stated, fails: `Values` is a `uint32`, so after `2^32` calls of
`Add` with a record of size 1 on the empty accumulator `Values` is back at 0
while `Bytes` is `2^32`. -/
theorem values_zero_bytes_nonzero :
    (run Perf.empty (List.replicate (2 ^ 32) (Op.add ⟨1, ⟨0⟩, 0⟩))).Values = 0 ∧
      (run Perf.empty (List.replicate (2 ^ 32) (Op.add ⟨1, ⟨0⟩, 0⟩))).Bytes = 4294967296 := by
  rw [run_replicate_add]
  constructor
  · rw [addAll_Values_empty, List.length_replicate]
    exact Nat.mod_self _
  · have h := addAll_Bytes_empty (List.replicate (2 ^ 32) (⟨1, ⟨0⟩, 0⟩ : Record))
    rw [sizeSum_replicate] at h
    have h2 : (((2 ^ 32 : Nat) : Int) * (⟨1, ⟨0⟩, 0⟩ : Record).Size) % 2 ^ 64 =
        ((4294967296 : Nat) : Int) := by decide
    rw [h2] at h
    exact_mod_cast h

/-- C10, amended: in every state reached from the empty state by a finite
sequence of `Add` and `Reset` calls with fewer than `2^32` calls of `Add`
after the last `Reset`, `Values == 0` implies `Bytes == 0`, `moment1 == 0`,
`moment2 == 0` and `StartTime` and `EndTime` at the zero instant. -/
theorem values_zero_imp_empty (ops : List Op) (hadds : addsSinceReset ops < 2 ^ 32)
    (hv : (run Perf.empty ops).Values = 0) :
    (run Perf.empty ops).Bytes = 0 ∧ (run Perf.empty ops).moment1 = some 0 ∧
      (run Perf.empty ops).moment2 = some 0 ∧ (run Perf.empty ops).StartTime = Time.zero ∧
      (run Perf.empty ops).EndTime = Time.zero := by
  obtain ⟨rs, hrs, hlen⟩ := run_eq_addAll ops
  rw [hrs] at hv ⊢
  rw [addAll_Values_small rs (by rw [hlen]; exact hadds)] at hv
  have hnil : rs = [] := List.length_eq_zero.mp hv
  subst hnil
  exact ⟨rfl, rfl, rfl, rfl, rfl⟩

/-- Witness of C10 amended on an `Add` followed by a `Reset`. -/
theorem values_zero_imp_empty_witness :
    addsSinceReset [Op.add ⟨100, ⟨10⟩, 5⟩, Op.reset] < 2 ^ 32 ∧
      (run Perf.empty [Op.add ⟨100, ⟨10⟩, 5⟩, Op.reset]).Values = 0 ∧
      (run Perf.empty [Op.add ⟨100, ⟨10⟩, 5⟩, Op.reset]).Bytes = 0 :=
  ⟨by decide, rfl,
    (values_zero_imp_empty [Op.add ⟨100, ⟨10⟩, 5⟩, Op.reset] (by decide) rfl).1⟩

/-! ## Sign of the second moment -/

theorem sqDevSum_nonneg (rs : List Record) : 0 ≤ sqDevSum rs := by
  unfold sqDevSum
  apply List.sum_nonneg
  intro x hx
  obtain ⟨r, _, rfl⟩ := List.mem_map.mp hx
  exact sq_nonneg _

/-- With a finite mean `m` and a new count `k ≥ 1` the increment of
`moment2` is `(x - m)^2 * (k - 1) / k`. -/
theorem increment_eq (p : Perf) (r : Record) (m : ℚ) (k : Nat) (hm : p.moment1 = some m)
    (hk : (p.Values + 1) % 2 ^ 32 = k) (hk0 : k ≠ 0) :
    p.increment r = some (((r.Latency : ℚ) - m) ^ 2 * (((k : ℚ) - 1) / (k : ℚ))) := by
  have hq : (k : ℚ) ≠ 0 := by exact_mod_cast hk0
  unfold Perf.increment
  rw [add_moment1, hm, hk]
  simp only [fsub, fdivBy, fadd, fmul, if_neg hq]
  congr 1
  field_simp
  ring

/-- C11, as stated, fails: after `2^32 - 1` records of latency 0 the
`uint32` counter is at its maximum, so the next `Add`, of a record of
latency 1, divides `delta1 = 1` by `float64(0)`; `moment1` and `moment2`
are then not finite (in `float64` the mean is `+Inf` and `moment2` is
`1 * -Inf = -Inf`), and `moment2` is no non-negative number. -/
theorem moment2_not_nonneg :
    (run Perf.empty
        (List.replicate (2 ^ 32 - 1) (Op.add ⟨1, ⟨0⟩, 0⟩) ++ [Op.add ⟨1, ⟨0⟩, 1⟩])).moment2
        = none ∧
      ¬ ∃ q : ℚ, (run Perf.empty
        (List.replicate (2 ^ 32 - 1) (Op.add ⟨1, ⟨0⟩, 0⟩) ++ [Op.add ⟨1, ⟨0⟩, 1⟩])).moment2
          = some q ∧ 0 ≤ q := by
  have hlen : (List.replicate (2 ^ 32 - 1) (⟨1, ⟨0⟩, 0⟩ : Record)).length < 2 ^ 32 := by
    rw [List.length_replicate]; decide
  have hv : (addAll Perf.empty (List.replicate (2 ^ 32 - 1) (⟨1, ⟨0⟩, 0⟩ : Record))).Values
      = 2 ^ 32 - 1 := by
    rw [addAll_Values_small _ hlen, List.length_replicate]
  obtain ⟨h1, h2⟩ := addAll_moments _ hlen
  have hnone : (run Perf.empty
      (List.replicate (2 ^ 32 - 1) (Op.add ⟨1, ⟨0⟩, 0⟩) ++ [Op.add ⟨1, ⟨0⟩, 1⟩])).moment2
      = none := by
    rw [run_snoc, run_replicate_add]
    show ((addAll Perf.empty (List.replicate (2 ^ 32 - 1) (⟨1, ⟨0⟩, 0⟩ : Record))).Add
      ⟨1, ⟨0⟩, 1⟩).moment2 = none
    rw [add_moment2, add_moment1, h1, h2, hv]
    have hz : (((2 ^ 32 - 1 + 1) % 2 ^ 32 : Nat) : ℚ) = 0 := by
      have : (2 ^ 32 - 1 + 1) % 2 ^ 32 = 0 := by decide
      rw [this]; rfl
    simp only [fsub, fdivBy, fadd, fmul, hz, if_true]
  refine ⟨hnone, ?_⟩
  rintro ⟨q, hq, _⟩
  rw [hnone] at hq
  cases hq

/-- C11, amended: in every state reached from the empty state by `Add` and
`Reset` calls with fewer than `2^32` calls of `Add` after the last `Reset`,
`moment2` is a finite number `≥ 0`, and while the count stays below `2^32`
the increment `delta1 * delta2` of the next `Add` is a finite number `≥ 0`,
whatever the sign of the latencies. -/
theorem moment2_nonneg (ops : List Op) (hadds : addsSinceReset ops < 2 ^ 32) :
    (∃ q : ℚ, (run Perf.empty ops).moment2 = some q ∧ 0 ≤ q) ∧
      ∀ r : Record, addsSinceReset ops + 1 < 2 ^ 32 →
        ∃ d : ℚ, (run Perf.empty ops).increment r = some d ∧ 0 ≤ d := by
  obtain ⟨rs, hrs, hlen⟩ := run_eq_addAll ops
  have hl : rs.length < 2 ^ 32 := by rw [hlen]; exact hadds
  obtain ⟨h1, h2⟩ := addAll_moments rs hl
  rw [hrs]
  constructor
  · refine ⟨sqDevSum rs, ?_, sqDevSum_nonneg rs⟩
    rw [sqDevSum_eq]; exact h2
  · intro r hr
    have hv : ((addAll Perf.empty rs).Values + 1) % 2 ^ 32 = rs.length + 1 := by
      rw [addAll_Values_small rs hl]
      exact Nat.mod_eq_of_lt (by rw [hlen]; exact hr)
    have hinc := increment_eq (addAll Perf.empty rs) r _ (rs.length + 1) h1 hv
      (Nat.succ_ne_zero _)
    refine ⟨_, hinc, ?_⟩
    apply mul_nonneg (sq_nonneg _)
    apply div_nonneg
    · push_cast; linarith [(Nat.cast_nonneg rs.length : (0 : ℚ) ≤ rs.length)]
    · exact Nat.cast_nonneg _

/-- Witness of C11 amended after two records, one of negative latency. -/
theorem moment2_nonneg_witness :
    addsSinceReset [Op.add ⟨100, ⟨10⟩, 5⟩, Op.add ⟨200, ⟨20⟩, -8⟩] < 2 ^ 32 ∧
      ∃ q : ℚ, (run Perf.empty [Op.add ⟨100, ⟨10⟩, 5⟩, Op.add ⟨200, ⟨20⟩, -8⟩]).moment2
        = some q ∧ 0 ≤ q :=
  ⟨by decide,
    (moment2_nonneg [Op.add ⟨100, ⟨10⟩, 5⟩, Op.add ⟨200, ⟨20⟩, -8⟩] (by decide)).1⟩

/-! ## Degenerate reads of the standard deviation -/

theorem variance_eq_divisor (p : Perf) :
    p.variance = fdivBy p.moment2 (p.stdevDivisor : ℚ) := rfl

theorem sqrtToDuration_zero : sqrtToDuration (some 0) = some 0 := by
  simp [sqrtToDuration, maxDuration]

theorem add_empty_moment1 (r : Record) :
    (Perf.empty.Add r).moment1 = some (r.Latency : ℚ) := by
  rw [add_moment1]
  simp [Perf.empty, fsub, fdivBy, fadd]

theorem add_empty_moment2 (r : Record) : (Perf.empty.Add r).moment2 = some 0 := by
  rw [add_moment2, add_empty_moment1]
  simp [Perf.empty, fsub, fadd, fmul]

/-- C12, as stated, fails: on the empty accumulator the divisor of
`LatencyStdev` is the `uint32` value `0 - 1 = 4294967295`, not `-1`, so the
variance is `0 / 4294967295`, the value zero, and `LatencyStdev` returns the
zero duration. -/
theorem empty_variance_zero :
    Perf.empty.stdevDivisor = 4294967295 ∧ ((Perf.empty.stdevDivisor : Int) ≠ -1) ∧
      Perf.empty.variance = some 0 ∧ Perf.empty.LatencyStdev = some 0 := by
  have hd : Perf.empty.stdevDivisor = 4294967295 := by decide
  have hv : Perf.empty.variance = some 0 := by
    rw [variance_eq_divisor, hd]
    simp [Perf.empty, fdivBy]
  refine ⟨hd, ?_, hv, ?_⟩
  · rw [hd]; decide
  · unfold Perf.LatencyStdev
    rw [hv]; exact sqrtToDuration_zero

/-- C12, amended: on an accumulator with `Values == 0` the divisor of
`LatencyStdev` is the `uint32` value `Values - 1 = 4294967295`, a positive
number, so with `moment2 == 0`, as on the empty accumulator, the variance is
the value zero and `LatencyStdev` returns the zero duration. -/
theorem variance_of_values_zero (p : Perf) (hv : p.Values = 0) (hm : p.moment2 = some 0) :
    p.stdevDivisor = 4294967295 ∧ 0 < p.stdevDivisor ∧ p.variance = some 0 ∧
      p.LatencyStdev = some 0 := by
  have hd : p.stdevDivisor = 4294967295 := by
    unfold Perf.stdevDivisor; rw [hv]; decide
  have hvar : p.variance = some 0 := by
    rw [variance_eq_divisor, hd, hm]
    simp [fdivBy]
  refine ⟨hd, by rw [hd]; decide, hvar, ?_⟩
  unfold Perf.LatencyStdev
  rw [hvar]; exact sqrtToDuration_zero

/-- Witness of C12 amended on the state left by `Reset`. -/
theorem variance_of_values_zero_witness :
    (Perf.empty.Add ⟨100, ⟨10⟩, 5⟩).Reset.Values = 0 ∧
      (Perf.empty.Add ⟨100, ⟨10⟩, 5⟩).Reset.LatencyStdev = some 0 :=
  ⟨rfl, (variance_of_values_zero (Perf.empty.Add ⟨100, ⟨10⟩, 5⟩).Reset rfl rfl).2.2.2⟩

/-- C13: after exactly one `Add` of any record on the empty accumulator,
`Values == 1` and `moment2 == 0`, the divisor `Values - 1` of `LatencyStdev`
is zero, and the variance is the division `0 / 0`, not a finite value:
`LatencyStdev` has no defined result. -/
theorem one_add_variance_undefined (r : Record) :
    (Perf.empty.Add r).Values = 1 ∧ (Perf.empty.Add r).moment2 = some 0 ∧
      (Perf.empty.Add r).stdevDivisor = 0 ∧ (Perf.empty.Add r).variance = none ∧
      (Perf.empty.Add r).LatencyStdev = none := by
  have hv : (Perf.empty.Add r).Values = 1 := by rw [add_Values]; rfl
  have hd : (Perf.empty.Add r).stdevDivisor = 0 := by
    unfold Perf.stdevDivisor; rw [hv]; decide
  have hvar : (Perf.empty.Add r).variance = none := by
    rw [variance_eq_divisor, hd, add_empty_moment2]
    simp [fdivBy]
  refine ⟨hv, add_empty_moment2 r, hd, hvar, ?_⟩
  unfold Perf.LatencyStdev
  rw [hvar]; rfl

/-! ## Length of the window after no record and after one record -/

theorem sub_self_zero (t : Time) : t.Sub t = 0 := by
  simp [Time.Sub, minDuration, maxDuration]

theorem valuesPerSec_of_window_zero (p : Perf) (h : p.EndTime.Sub p.StartTime = 0) :
    p.ValuesPerSec = none ∧ p.Mbps = none := by
  unfold Perf.ValuesPerSec Perf.Mbps
  simp [h, Seconds, fdivBy, fmul]

/-- C14, as stated, fails: after one `Add` of a record stamped 10ns with a
latency of 5ns on the empty accumulator, `EndTime` is 10ns and `StartTime`
is 5ns; the window is 5ns long and `ValuesPerSec` is the finite quotient
`1 / 0.000000005`. -/
theorem one_add_window_nonzero :
    (Perf.empty.Add ⟨100, ⟨10⟩, 5⟩).EndTime = (⟨10⟩ : Time) ∧
      (Perf.empty.Add ⟨100, ⟨10⟩, 5⟩).StartTime = (⟨5⟩ : Time) ∧
      (Perf.empty.Add ⟨100, ⟨10⟩, 5⟩).EndTime ≠ (Perf.empty.Add ⟨100, ⟨10⟩, 5⟩).StartTime ∧
      (Perf.empty.Add ⟨100, ⟨10⟩, 5⟩).ValuesPerSec = some 200000000 := by
  have he : (Perf.empty.Add ⟨100, ⟨10⟩, 5⟩).EndTime = (⟨10⟩ : Time) := by decide
  have hs : (Perf.empty.Add ⟨100, ⟨10⟩, 5⟩).StartTime = (⟨5⟩ : Time) := by decide
  refine ⟨he, hs, ?_, ?_⟩
  · rw [he, hs]; decide
  · have hv : (Perf.empty.Add ⟨100, ⟨10⟩, 5⟩).Values = 1 := rfl
    have hsub : (⟨10⟩ : Time).Sub ⟨5⟩ = 5 := by decide
    unfold Perf.ValuesPerSec
    rw [he, hs, hv, hsub]
    simp only [Seconds, fdivBy]
    norm_num

/-- C14, amended: on the empty accumulator the window is zero-length
(`EndTime == StartTime`), so `ValuesPerSec` and `Mbps` divide by a
zero-second duration; after exactly one `Add`, on the empty accumulator, of
a record stamped at or after the zero instant whose latency is not the least
`int64`, the window `EndTime - StartTime` is the record's `Latency`, so it is
zero-length exactly when the `Latency` is zero, and then `ValuesPerSec` and
`Mbps` divide by a zero-second duration. -/
theorem window_after_zero_or_one_add (r : Record) (hts : 0 ≤ r.Timestamp.ns)
    (h1 : -(2 ^ 63) < r.Latency) (h2 : r.Latency < 2 ^ 63) :
    (Perf.empty.EndTime = Perf.empty.StartTime ∧ Perf.empty.ValuesPerSec = none ∧
        Perf.empty.Mbps = none) ∧
      (Perf.empty.Add r).EndTime.Sub (Perf.empty.Add r).StartTime = r.Latency ∧
      ((Perf.empty.Add r).EndTime = (Perf.empty.Add r).StartTime ↔ r.Latency = 0) ∧
      (r.Latency = 0 →
        (Perf.empty.Add r).ValuesPerSec = none ∧ (Perf.empty.Add r).Mbps = none) := by
  have he : (Perf.empty.Add r).EndTime = r.Timestamp := by
    rw [add_EndTime]
    split
    · rfl
    · apply time_ext
      have : Perf.empty.EndTime.ns = 0 := rfl
      omega
  have hs : (Perf.empty.Add r).StartTime = proposalTS r := by
    rw [add_StartTime]
    exact if_pos (Or.inl rfl)
  have hp := proposalTS_ns r h1 h2
  have hsub : (Perf.empty.Add r).EndTime.Sub (Perf.empty.Add r).StartTime = r.Latency := by
    rw [he, hs]
    simp only [Time.Sub, hp, minDuration, maxDuration]
    split
    · omega
    · split <;> omega
  refine ⟨⟨rfl, valuesPerSec_of_window_zero Perf.empty (sub_self_zero _)⟩, hsub, ?_, ?_⟩
  · rw [he, hs]
    constructor
    · intro heq
      have : r.Timestamp.ns = (proposalTS r).ns := by rw [← heq]
      omega
    · intro h0
      apply time_ext
      omega
  · intro h0
    exact valuesPerSec_of_window_zero _ (by rw [hsub, h0])

/-- Witness of C14 amended on a record of latency zero. -/
theorem window_after_zero_or_one_add_witness :
    (Perf.empty.Add ⟨100, ⟨10⟩, 0⟩).EndTime = (Perf.empty.Add ⟨100, ⟨10⟩, 0⟩).StartTime ∧
      (Perf.empty.Add ⟨100, ⟨10⟩, 0⟩).ValuesPerSec = none :=
  have h := window_after_zero_or_one_add ⟨100, ⟨10⟩, 0⟩ (by decide) (by decide) (by decide)
  ⟨h.2.2.1.mpr rfl, (h.2.2.2 rfl).1⟩

/-! ## The counter under `Add` -/

/-- C15, as stated, fails: after `2^32 - 1` calls of `Add` on the empty
accumulator `Values` is `4294967295`, the largest `uint32`, and one more
`Add` takes it to 0, which is smaller. -/
theorem add_values_wraps :
    (addAll Perf.empty (List.replicate (2 ^ 32 - 1) ⟨1, ⟨0⟩, 0⟩)).Values = 4294967295 ∧
      ((addAll Perf.empty (List.replicate (2 ^ 32 - 1) ⟨1, ⟨0⟩, 0⟩)).Add ⟨1, ⟨0⟩, 0⟩).Values
        = 0 := by
  have hv : (addAll Perf.empty (List.replicate (2 ^ 32 - 1) (⟨1, ⟨0⟩, 0⟩ : Record))).Values
      = 4294967295 := by
    rw [addAll_Values_empty, List.length_replicate]; decide
  refine ⟨hv, ?_⟩
  rw [add_Values, hv]; decide

/-- C15, amended: for every state with `Values` below `4294967295`, the
largest `uint32`, and every record, `Add` increases `Values` by exactly 1,
so the count is strictly greater after `Add` than before; and over any run
of `Add` calls that keeps the count below `2^32`, `Values` grows by the
number of calls. -/
theorem add_values_succ (p : Perf) (r : Record) (h : p.Values < 2 ^ 32 - 1) :
    (p.Add r).Values = p.Values + 1 ∧ p.Values < (p.Add r).Values ∧
      ∀ rs : List Record, p.Values + rs.length < 2 ^ 32 →
        (addAll p rs).Values = p.Values + rs.length := by
  have h1 : (p.Add r).Values = p.Values + 1 := by
    rw [add_Values]; exact Nat.mod_eq_of_lt (by omega)
  refine ⟨h1, by omega, ?_⟩
  intro rs hrs
  rcases addAll_Values p rs with h2 | ⟨h2, h3⟩
  · rw [h2]; exact Nat.mod_eq_of_lt hrs
  · rw [h3, h2]; rfl

/-- Witness of C15 amended on the empty accumulator. -/
theorem add_values_succ_witness :
    Perf.empty.Values < 2 ^ 32 - 1 ∧ (Perf.empty.Add ⟨100, ⟨10⟩, 5⟩).Values = 1 :=
  ⟨by decide, (add_values_succ Perf.empty ⟨100, ⟨10⟩, 5⟩ (by decide)).1⟩

/-! ## Monotonicity of the interval bounds -/

theorem add_StartTime_le (p : Perf) (r : Record) (hp : p.StartTime.ns ≠ 0) :
    (p.Add r).StartTime.ns ≤ p.StartTime.ns ∧
      ((proposalTS r).ns ≠ 0 → (p.Add r).StartTime.ns ≠ 0) := by
  rw [add_StartTime]
  split
  · rename_i hc
    rcases hc with hc | hc
    · exact absurd hc hp
    · exact ⟨le_of_lt hc, fun h => h⟩
  · exact ⟨le_refl _, fun _ => hp⟩

theorem addAll_StartTime_le (p : Perf) (rs : List Record) (hp : p.StartTime.ns ≠ 0)
    (hz : ∀ r ∈ rs, (proposalTS r).ns ≠ 0) :
    (addAll p rs).StartTime.ns ≤ p.StartTime.ns ∧ (addAll p rs).StartTime.ns ≠ 0 := by
  induction rs using List.reverseRecOn with
  | nil => exact ⟨le_refl _, hp⟩
  | append_singleton l a ih =>
    obtain ⟨h1, h2⟩ := ih (fun r hr => hz r (List.mem_append_left _ hr))
    rw [addAll_snoc]
    obtain ⟨h3, h4⟩ := add_StartTime_le (addAll p l) a h2
    exact ⟨le_trans h3 h1, h4 (hz a (by simp))⟩

/-- C16, as stated, fails: after a record starting at 5ns `StartTime` is
set to 5ns; a second record starting at the zero instant moves it to the
zero instant, which reads as unset, and a third record starting at 100ns
then sets it to 100ns, later than 5ns. -/
theorem startTime_moves_later :
    (addAll Perf.empty [⟨0, ⟨10⟩, 5⟩]).StartTime = (⟨5⟩ : Time) ∧
      (addAll Perf.empty [⟨0, ⟨10⟩, 5⟩]).StartTime ≠ Time.zero ∧
      (addAll Perf.empty ([⟨0, ⟨10⟩, 5⟩] ++ [⟨0, ⟨3⟩, 3⟩, ⟨0, ⟨100⟩, 0⟩])).StartTime
        = (⟨100⟩ : Time) ∧
      ¬ (addAll Perf.empty ([⟨0, ⟨10⟩, 5⟩] ++ [⟨0, ⟨3⟩, 3⟩, ⟨0, ⟨100⟩, 0⟩])).StartTime.ns ≤
        (addAll Perf.empty [⟨0, ⟨10⟩, 5⟩]).StartTime.ns := by
  refine ⟨by decide, by decide, by decide, by decide⟩

/-- C16, amended: for every sequence of `Add` calls with no `Reset` in
between and any two points `i ≤ j` of it such that `StartTime` is not the
zero instant after the `i`-th `Add` and no record added after the `i`-th up
to the `j`-th has its proposed start `Timestamp.Add(-1 * Latency)` at the
zero instant, `StartTime` after the `j`-th `Add` is not later than
`StartTime` after the `i`-th. -/
theorem startTime_nonincreasing (p : Perf) (rs1 rs2 : List Record)
    (hset : (addAll p rs1).StartTime ≠ Time.zero)
    (hz : ∀ r ∈ rs2, proposalTS r ≠ Time.zero) :
    (addAll p (rs1 ++ rs2)).StartTime.ns ≤ (addAll p rs1).StartTime.ns := by
  rw [addAll_append]
  have h0 : (addAll p rs1).StartTime.ns ≠ 0 := fun h => hset (time_ext _ _ h)
  have hz1 : ∀ r ∈ rs2, (proposalTS r).ns ≠ 0 := fun r hr h => hz r hr (time_ext _ _ h)
  exact (addAll_StartTime_le (addAll p rs1) rs2 h0 hz1).1

/-- Witness of C16 amended on three records added to the empty accumulator. -/
theorem startTime_nonincreasing_witness :
    (addAll Perf.empty ([⟨0, ⟨10⟩, 5⟩] ++ [⟨0, ⟨4⟩, 1⟩, ⟨0, ⟨100⟩, 0⟩])).StartTime.ns ≤
      (addAll Perf.empty [⟨0, ⟨10⟩, 5⟩]).StartTime.ns :=
  startTime_nonincreasing Perf.empty [⟨0, ⟨10⟩, 5⟩] [⟨0, ⟨4⟩, 1⟩, ⟨0, ⟨100⟩, 0⟩]
    (by decide) (by decide)

/-- C17: for every accumulator state and every record, `EndTime` after
`Add` is not earlier than `EndTime` before, and is either the old `EndTime`
or the record's `Timestamp`. -/
theorem endTime_nondecreasing (p : Perf) (r : Record) :
    p.EndTime.ns ≤ (p.Add r).EndTime.ns ∧
      ((p.Add r).EndTime = p.EndTime ∨ (p.Add r).EndTime = r.Timestamp) :=
  ⟨add_EndTime_ge p r, add_EndTime_cases p r⟩

/-! ## Negative sizes -/

/-- C18: for every state with `Bytes = b` (a `uint64`) and every record of
negative size `-k` with `0 < k ≤ b` and `k < 2^63`, the conversion
`uint64(r.Size)` is `2^64 - k` and the wrapping addition of `Add` leaves
`Bytes = b - k`. -/
theorem add_negative_size (p : Perf) (r : Record) (k : Nat) (hb : p.Bytes < 2 ^ 64)
    (hk0 : 0 < k) (hkb : k ≤ p.Bytes) (hk : k < 2 ^ 63) (hs : r.Size = -(k : Int)) :
    toUint64 r.Size = 2 ^ 64 - k ∧ (p.Add r).Bytes = p.Bytes - k := by
  have hc : ((toUint64 r.Size : Nat) : Int) = 2 ^ 64 - (k : Int) := by
    rw [toUint64_cast, hs]
    omega
  have ht : toUint64 r.Size = 2 ^ 64 - k := by omega
  refine ⟨ht, ?_⟩
  rw [add_Bytes, ht]
  omega

/-- Witness of C18 on a state holding 300 bytes and a record of size -100. -/
theorem add_negative_size_witness :
    ((⟨2, 300, ⟨5⟩, ⟨20⟩, some 6, some 2⟩ : Perf).Add ⟨-100, ⟨30⟩, 3⟩).Bytes = 300 - 100 :=
  (add_negative_size ⟨2, 300, ⟨5⟩, ⟨20⟩, some 6, some 2⟩ ⟨-100, ⟨30⟩, 3⟩ 100
    (by decide) (by decide) (by decide) (by decide) rfl).2

/-! ## Sign of the window -/

theorem addAll_StartTime_cases (p : Perf) (rs : List Record) :
    (addAll p rs).StartTime = p.StartTime ∨
      ∃ r ∈ rs, (addAll p rs).StartTime = proposalTS r := by
  induction rs using List.reverseRecOn with
  | nil => left; rfl
  | append_singleton l a ih =>
    rw [addAll_snoc, add_StartTime]
    split
    · right; exact ⟨a, by simp, rfl⟩
    · rcases ih with h | ⟨r, hr, h⟩
      · left; exact h
      · right; exact ⟨r, List.mem_append_left _ hr, h⟩

/-- A state reached from the empty one is the empty state followed by records
of the sequence. -/
theorem run_eq_addAll_mem (ops : List Op) :
    ∃ rs : List Record, run Perf.empty ops = addAll Perf.empty rs ∧
      ∀ r ∈ rs, Op.add r ∈ ops := by
  induction ops using List.reverseRecOn with
  | nil => exact ⟨[], rfl, fun r hr => by cases hr⟩
  | append_singleton l op ih =>
    obtain ⟨rs, hrs, hmem⟩ := ih
    cases op with
    | add r =>
      refine ⟨rs ++ [r], ?_, ?_⟩
      · rw [run_snoc, addAll_snoc, hrs]; rfl
      · intro x hx
        rcases List.mem_append.mp hx with h | h
        · exact List.mem_append_left _ (hmem x h)
        · rw [List.mem_singleton.mp h]; simp
    | reset =>
      refine ⟨[], ?_, fun r hr => by cases hr⟩
      rw [run_snoc]; rfl

/-- C19: in every state reached from the empty state by `Reset` calls and
`Add` calls whose records all have a non-negative (`int64`) latency,
`StartTime` is not later than `EndTime`, so the window `EndTime - StartTime`
read by `ValuesPerSec` and `Mbps` is not negative. -/
theorem startTime_le_endTime (ops : List Op)
    (hlat : ∀ r, Op.add r ∈ ops → 0 ≤ r.Latency ∧ r.Latency < 2 ^ 63) :
    (run Perf.empty ops).StartTime.ns ≤ (run Perf.empty ops).EndTime.ns ∧
      0 ≤ (run Perf.empty ops).EndTime.Sub (run Perf.empty ops).StartTime := by
  obtain ⟨rs, hrs, hmem⟩ := run_eq_addAll_mem ops
  rw [hrs]
  have hle : (addAll Perf.empty rs).StartTime.ns ≤ (addAll Perf.empty rs).EndTime.ns := by
    rcases addAll_StartTime_cases Perf.empty rs with h | ⟨r, hr, h⟩
    · rw [h]; exact addAll_EndTime_ge Perf.empty rs
    · obtain ⟨h0, h1⟩ := hlat r (hmem r hr)
      have hp := proposalTS_ns r (by omega) h1
      have hts := addAll_EndTime_ge_ts Perf.empty rs r hr
      rw [h, hp]
      omega
  refine ⟨hle, ?_⟩
  simp only [Time.Sub, minDuration, maxDuration]
  split
  · omega
  · split <;> omega

/-- Witness of C19 on two `Add` calls around a `Reset`. -/
theorem startTime_le_endTime_witness :
    (run Perf.empty [Op.add ⟨100, ⟨10⟩, 5⟩, Op.reset, Op.add ⟨200, ⟨20⟩, 8⟩]).StartTime.ns ≤
      (run Perf.empty [Op.add ⟨100, ⟨10⟩, 5⟩, Op.reset, Op.add ⟨200, ⟨20⟩, 8⟩]).EndTime.ns :=
  (startTime_le_endTime [Op.add ⟨100, ⟨10⟩, 5⟩, Op.reset, Op.add ⟨200, ⟨20⟩, 8⟩]
    (by
      intro r hr
      simp only [List.mem_cons, Op.add.injEq, List.mem_singleton, reduceCtorEq, false_or,
        or_false, List.not_mem_nil] at hr
      rcases hr with rfl | rfl <;> decide)).1

end PerfModel
